import Mathlib

/-!
Shallow embedding of the fisschl/scripts file-management toolbox, covering the
components the specification's claims are about:

* the cached async loader (`useLoader` in the composables module, together with
  the simpler `useAsyncLoad`), modelled as an explicit event-step machine over a
  loader state;
* the recursive local tree scanner (`listFilesRecursiveWithInfo` /
  `listDirectory`);
* the paginated remote object lister (`listAllRemoteFiles`);
* the persisted-configuration loaders (`loadS3Instances`, `initializePlans`);
* the content-addressed namer (`calculateFileHash`).

Throughout, a JavaScript `Map` is embedded as an association list with the
`Map.set` semantics: setting an existing key updates the value in place
(keeping its position), setting a fresh key appends it.
-/

/-- JS `Map.set` on an association list: update in place if the key is present,
otherwise append at the end. -/
def mapSet {K V : Type} [DecidableEq K] (m : List (K × V)) (k : K) (v : V) :
    List (K × V) :=
  if m.any (fun kv => decide (kv.1 = k)) then
    m.map (fun kv => if kv.1 = k then (k, v) else kv)
  else m ++ [(k, v)]

/-- JS `Map.get` on an association list. -/
def mapGet {K V : Type} [DecidableEq K] (m : List (K × V)) (k : K) : Option V :=
  (m.find? (fun kv => decide (kv.1 = k))).map (fun kv => kv.2)

/-! ## Cached async loader (`useLoader`, `useAsyncLoad`)

The source is a Vue composable.  `useLoader` watches a deep-cloned parameter
snapshot; on a parameter change it compares the new snapshot with the previous
one using deep equality (`isEqual`) and returns early if they agree; otherwise
it consults the optional LRU cache (keyed by `hash(params)`) and, on a miss,
submits `fetchData` either through the optional p-limit gate or directly.
`refresh` submits `fetchData` unconditionally.  `fetchData` sets `isLoading`,
awaits the fetcher, writes the cache and the data only on success, and clears
`isLoading` in a `finally` block.

The embedding makes the cooperative async scheduling explicit: an external
event is either a parameter change, a manual refresh, or the completion
(success or rejection) of the oldest in-flight fetcher call.  The `ohash`
key derivation is modelled by keying the cache with the parameter snapshot
itself (hash collisions are not modelled).  `useAsyncLoad` is the instance
with an internal single-slot gate and no cache; `useLoader` is the instance
whose gate and cache are chosen by the configuration. -/

/-- Static configuration of one loader instance: whether a p-limit gate was
provided, its concurrency, and whether an LRU cache was provided. -/
structure LoaderCfg where
  limited : Bool
  conc : Nat
  cached : Bool
deriving DecidableEq

/-- Dynamic state of one loader instance.  `running` lists the parameter
snapshots of the fetcher calls currently awaiting their promise (oldest
first), `active`/`queued` mirror the p-limit gate's accounting, and
`fetchCount` counts how many times the user-supplied fetcher has been
invoked. -/
structure LoaderState (T R : Type) where
  currentParams : Option T
  data : Option R
  isLoading : Bool
  cache : List (Option T × R)
  active : Nat
  queued : Nat
  running : List (Option T)
  fetchCount : Nat
deriving DecidableEq

/-- The state a loader starts in. -/
def initLoader (T R : Type) : LoaderState T R :=
  { currentParams := none, data := none, isLoading := false, cache := []
    active := 0, queued := 0, running := [], fetchCount := 0 }

/-- A fetcher call starts running: `fetchData` sets `isLoading` and invokes
the fetcher on the current parameter snapshot. -/
def startFetch {T R : Type} (s : LoaderState T R) : LoaderState T R :=
  { s with isLoading := true, running := s.running ++ [s.currentParams],
           fetchCount := s.fetchCount + 1 }

/-- Submitting `fetchData`: through the p-limit gate when one is configured
(run immediately if a slot is free, otherwise join the FIFO queue), or as a
direct call when no gate is configured. -/
def submitFetch {T R : Type} (cfg : LoaderCfg) (s : LoaderState T R) :
    LoaderState T R :=
  if cfg.limited then
    if s.active < cfg.conc then startFetch { s with active := s.active + 1 }
    else { s with queued := s.queued + 1 }
  else startFetch s

/-- The watcher body for a parameter change: record the new snapshot, return
early when it is deep-equal to the previous one, otherwise use a cache hit
directly or submit a fetch. -/
def stepParam {T R : Type} [DecidableEq T] (cfg : LoaderCfg)
    (s : LoaderState T R) (p : T) : LoaderState T R :=
  if s.currentParams = some p then { s with currentParams := some p }
  else if cfg.cached then
    match mapGet s.cache (some p) with
    | some r => { s with currentParams := some p, data := some r }
    | none => submitFetch cfg { s with currentParams := some p }
  else submitFetch cfg { s with currentParams := some p }

/-- The `refresh` method: submit `fetchData` unconditionally (the cache is not
consulted). -/
def stepRefresh {T R : Type} (cfg : LoaderCfg) (s : LoaderState T R) :
    LoaderState T R :=
  submitFetch cfg s

/-- The tail of `fetchData` once the awaited fetcher promise settles.  `some r`
is a resolved promise: the result is written to the cache (when one is
configured, keyed by the hash of the *current* parameter snapshot, which is
how `cacheKey.value` evaluates at that moment) and to `data`, and `isLoading`
is cleared by the `finally` block.  `none` is a rejected promise: only the
`finally` block runs, the cache and `data` are untouched. -/
def settleFetch {T R : Type} [DecidableEq T] (cfg : LoaderCfg)
    (s : LoaderState T R) (res : Option R) : LoaderState T R :=
  match res with
  | some r =>
    { s with
      cache := if cfg.cached then mapSet s.cache s.currentParams r else s.cache,
      data := some r, isLoading := false }
  | none => { s with isLoading := false }

/-- After a gated `fetchData` call returns, p-limit releases its slot and, when
the FIFO queue is non-empty, immediately starts the next queued call. -/
def finishGate {T R : Type} (cfg : LoaderCfg) (s : LoaderState T R) :
    LoaderState T R :=
  if cfg.limited then
    if 0 < s.queued then
      startFetch { s with active := s.active - 1 + 1, queued := s.queued - 1 }
    else { s with active := s.active - 1 }
  else s

/-- Completion of the oldest in-flight fetcher call: its `fetchData` body
resumes (`settleFetch`) and then the gate, when present, dispatches the next
queued call (`finishGate`).  With nothing in flight the event is a no-op. -/
def stepComplete {T R : Type} [DecidableEq T] (cfg : LoaderCfg)
    (s : LoaderState T R) (res : Option R) : LoaderState T R :=
  match s.running with
  | [] => s
  | _ :: rest => finishGate cfg (settleFetch cfg { s with running := rest } res)

/-- External events observable by one loader instance. -/
inductive LEvent (T R : Type) where
  | param (p : T)
  | refresh
  | complete (res : Option R)
deriving DecidableEq

/-- One step of the loader machine. -/
def stepLoader {T R : Type} [DecidableEq T] (cfg : LoaderCfg)
    (s : LoaderState T R) : LEvent T R → LoaderState T R
  | LEvent.param p => stepParam cfg s p
  | LEvent.refresh => stepRefresh cfg s
  | LEvent.complete res => stepComplete cfg s res

/-- Run the loader machine from the initial state over a list of events. -/
def runLoader {T R : Type} [DecidableEq T] (cfg : LoaderCfg)
    (evs : List (LEvent T R)) : LoaderState T R :=
  evs.foldl (stepLoader cfg) (initLoader T R)

/-- Number of fetcher calls currently in flight. -/
def inFlight {T R : Type} (s : LoaderState T R) : Nat :=
  s.running.length

/-! ### The single-slot gate invariant -/

/-- In a gated loader instance the in-flight fetcher calls are exactly the
gate's occupied slots, and the gate never exceeds its configured
concurrency. -/
def GateInv {T R : Type} (cfg : LoaderCfg) (s : LoaderState T R) : Prop :=
  s.running.length = s.active ∧ s.active ≤ cfg.conc

theorem gateInv_init {T R : Type} (cfg : LoaderCfg) :
    GateInv cfg (initLoader T R) :=
  ⟨rfl, Nat.zero_le _⟩

theorem submitFetch_currentParams {T R : Type} (cfg : LoaderCfg)
    (s : LoaderState T R) :
    (submitFetch cfg s).currentParams = s.currentParams := by
  unfold submitFetch startFetch
  split_ifs <;> rfl

theorem submitFetch_cache {T R : Type} (cfg : LoaderCfg)
    (s : LoaderState T R) : (submitFetch cfg s).cache = s.cache := by
  unfold submitFetch startFetch
  split_ifs <;> rfl

theorem submitFetch_data {T R : Type} (cfg : LoaderCfg)
    (s : LoaderState T R) : (submitFetch cfg s).data = s.data := by
  unfold submitFetch startFetch
  split_ifs <;> rfl

theorem submitFetch_count {T R : Type} (cfg : LoaderCfg)
    (s : LoaderState T R) :
    (submitFetch cfg s).fetchCount + (submitFetch cfg s).queued
      = s.fetchCount + s.queued + 1 := by
  unfold submitFetch startFetch
  split_ifs <;> dsimp only <;> omega

theorem gateInv_submitFetch {T R : Type} (cfg : LoaderCfg)
    (s : LoaderState T R) (hl : cfg.limited = true) (h : GateInv cfg s) :
    GateInv cfg (submitFetch cfg s) := by
  obtain ⟨h1, h2⟩ := h
  unfold submitFetch startFetch
  split_ifs with hc
  · refine ⟨?_, ?_⟩
    · show (s.running ++ [s.currentParams]).length = s.active + 1
      simp only [List.length_append, List.length_cons, List.length_nil]
      omega
    · show s.active + 1 ≤ cfg.conc
      omega
  · exact ⟨h1, h2⟩

theorem gateInv_stepParam {T R : Type} [DecidableEq T] (cfg : LoaderCfg)
    (s : LoaderState T R) (p : T) (hl : cfg.limited = true)
    (h : GateInv cfg s) : GateInv cfg (stepParam cfg s p) := by
  unfold stepParam
  split
  · exact h
  · split
    · split
      · exact h
      · exact gateInv_submitFetch cfg _ hl h
    · exact gateInv_submitFetch cfg _ hl h

theorem settleFetch_running {T R : Type} [DecidableEq T] (cfg : LoaderCfg)
    (s : LoaderState T R) (res : Option R) :
    (settleFetch cfg s res).running = s.running := by
  cases res <;> rfl

theorem settleFetch_active {T R : Type} [DecidableEq T] (cfg : LoaderCfg)
    (s : LoaderState T R) (res : Option R) :
    (settleFetch cfg s res).active = s.active := by
  cases res <;> rfl

theorem settleFetch_queued {T R : Type} [DecidableEq T] (cfg : LoaderCfg)
    (s : LoaderState T R) (res : Option R) :
    (settleFetch cfg s res).queued = s.queued := by
  cases res <;> rfl

theorem settleFetch_fetchCount {T R : Type} [DecidableEq T] (cfg : LoaderCfg)
    (s : LoaderState T R) (res : Option R) :
    (settleFetch cfg s res).fetchCount = s.fetchCount := by
  cases res <;> rfl

theorem gateInv_finishGate {T R : Type} (cfg : LoaderCfg)
    (s : LoaderState T R) (hl : cfg.limited = true)
    (h1 : s.running.length + 1 = s.active)
    (h2 : s.active ≤ cfg.conc) : GateInv cfg (finishGate cfg s) := by
  unfold finishGate startFetch
  split_ifs with hq
  · refine ⟨?_, ?_⟩
    · show (s.running ++ [s.currentParams]).length = s.active - 1 + 1
      simp only [List.length_append, List.length_cons, List.length_nil]
      omega
    · show s.active - 1 + 1 ≤ cfg.conc
      omega
  · refine ⟨?_, ?_⟩
    · show s.running.length = s.active - 1
      omega
    · show s.active - 1 ≤ cfg.conc
      omega

theorem gateInv_stepComplete {T R : Type} [DecidableEq T] (cfg : LoaderCfg)
    (s : LoaderState T R) (res : Option R) (hl : cfg.limited = true)
    (h : GateInv cfg s) : GateInv cfg (stepComplete cfg s res) := by
  obtain ⟨h1, h2⟩ := h
  unfold stepComplete
  split
  · exact ⟨h1, h2⟩
  · next _ rest heq =>
    apply gateInv_finishGate cfg _ hl
    · rw [settleFetch_running, settleFetch_active]
      show rest.length + 1 = s.active
      rw [heq] at h1
      simpa using h1
    · rw [settleFetch_active]
      exact h2

theorem gateInv_step {T R : Type} [DecidableEq T] (cfg : LoaderCfg)
    (s : LoaderState T R) (ev : LEvent T R) (hl : cfg.limited = true)
    (h : GateInv cfg s) : GateInv cfg (stepLoader cfg s ev) := by
  cases ev with
  | param p => exact gateInv_stepParam cfg s p hl h
  | refresh => exact gateInv_submitFetch cfg s hl h
  | complete res => exact gateInv_stepComplete cfg s res hl h

theorem gateInv_run {T R : Type} [DecidableEq T] (cfg : LoaderCfg)
    (evs : List (LEvent T R)) (hl : cfg.limited = true) :
    GateInv cfg (runLoader cfg evs) := by
  suffices h : ∀ s : LoaderState T R, GateInv cfg s →
      GateInv cfg (evs.foldl (stepLoader cfg) s) from
    h _ (gateInv_init cfg)
  induction evs with
  | nil => exact fun s hs => hs
  | cons ev rest ih =>
    exact fun s hs => ih _ (gateInv_step cfg s ev hl hs)

/-! ### Helper lemmas about single steps -/

theorem stepParam_currentParams {T R : Type} [DecidableEq T] (cfg : LoaderCfg)
    (s : LoaderState T R) (p : T) :
    (stepParam cfg s p).currentParams = some p := by
  unfold stepParam
  split
  · rfl
  · split
    · split
      · rfl
      · rw [submitFetch_currentParams]
    · rw [submitFetch_currentParams]

theorem set_currentParams_self {T R : Type} (s : LoaderState T R) (p : T)
    (h : s.currentParams = some p) :
    ({ s with currentParams := some p } : LoaderState T R) = s := by
  cases s with
  | mk cp d il ca a q r fc =>
    have h2 : cp = some p := h
    subst h2
    rfl

/-- A parameter-change event whose snapshot is deep-equal to the previous one
is skipped by the watcher guard: the state is unchanged. -/
theorem stepParam_of_eq {T R : Type} [DecidableEq T] (cfg : LoaderCfg)
    (s : LoaderState T R) (p : T) (h : s.currentParams = some p) :
    stepParam cfg s p = s := by
  unfold stepParam
  rw [if_pos h]
  exact set_currentParams_self s p h

theorem stepParam_count {T R : Type} [DecidableEq T] (cfg : LoaderCfg)
    (s : LoaderState T R) (p : T) :
    (stepParam cfg s p).fetchCount + (stepParam cfg s p).queued
      ≤ s.fetchCount + s.queued + 1 := by
  unfold stepParam
  split
  · show s.fetchCount + s.queued ≤ s.fetchCount + s.queued + 1
    omega
  · split
    · split
      · show s.fetchCount + s.queued ≤ s.fetchCount + s.queued + 1
        omega
      · rw [submitFetch_count]
    · rw [submitFetch_count]

/-! ### Claims C1 and C4 -/

/-- Claim C1, amended: the single-flight bound holds for every loader
instance whose fetches run behind a single-slot gate.  `useAsyncLoad` always
creates such a gate internally (`pLimit(1)`); `useLoader` routes fetches
through the caller-provided limit function, so the bound holds for it when
the caller supplies a concurrency-1 limit.  Under that gate, across any
sequence of parameter changes, refreshes and completions, at most one
fetcher call is in flight at any time; further requests wait in the gate's
FIFO queue. -/
theorem C1_single_flight_gated {T R : Type} [DecidableEq T] (cfg : LoaderCfg)
    (hl : cfg.limited = true) (hc : cfg.conc = 1)
    (evs : List (LEvent T R)) : inFlight (runLoader cfg evs) ≤ 1 := by
  obtain ⟨h1, h2⟩ := gateInv_run cfg evs hl
  rw [hc] at h2
  unfold inFlight
  omega

/-- Concrete instantiation of `C1_single_flight_gated`: a gated configuration
run over a parameter change, a refresh and a completion. -/
theorem C1_single_flight_gated_witness :
    ((⟨true, 1, false⟩ : LoaderCfg).limited = true ∧
      (⟨true, 1, false⟩ : LoaderCfg).conc = 1) ∧
    inFlight (runLoader (T := Nat) (R := Nat) ⟨true, 1, false⟩
      [LEvent.param 0, LEvent.refresh, LEvent.complete (some 7)]) ≤ 1 :=
  ⟨⟨rfl, rfl⟩, C1_single_flight_gated ⟨true, 1, false⟩ rfl rfl _⟩

/-- Claim C1, counterexample to the claim as stated: the limit function of
`useLoader` is optional, and an instance created without one issues
`fetchData()` directly.  Two parameter changes arriving while the first fetch
is still pending leave two fetcher calls in flight, so it is not true that
every loader instance has at most one fetch in flight. -/
theorem C1_counterexample :
    ¬ ∀ (cfg : LoaderCfg) (evs : List (LEvent Nat Nat)),
        inFlight (runLoader cfg evs) ≤ 1 := by
  intro hall
  exact absurd (hall ⟨false, 1, false⟩ [LEvent.param 0, LEvent.param 1])
    (by decide)

/-- Claim C4: two successive parameter updates whose snapshots are deep-equal
trigger at most one fetch — the second update is a literal no-op on the
loader state — and a manual refresh always submits exactly one fetch,
without consulting the cache or touching the stored data. -/
theorem C4_dedup_and_refresh {T R : Type} [DecidableEq T] (cfg : LoaderCfg)
    (s : LoaderState T R) (p : T) :
    (stepParam cfg (stepParam cfg s p) p = stepParam cfg s p ∧
      (stepParam cfg (stepParam cfg s p) p).fetchCount
        + (stepParam cfg (stepParam cfg s p) p).queued
        ≤ s.fetchCount + s.queued + 1) ∧
    (stepRefresh cfg s).fetchCount + (stepRefresh cfg s).queued
        = s.fetchCount + s.queued + 1 ∧
    (stepRefresh cfg s).cache = s.cache ∧
    (stepRefresh cfg s).data = s.data := by
  refine ⟨⟨?_, ?_⟩, ?_, ?_, ?_⟩
  · exact stepParam_of_eq cfg _ p (stepParam_currentParams cfg s p)
  · rw [stepParam_of_eq cfg _ p (stepParam_currentParams cfg s p)]
    exact stepParam_count cfg s p
  · exact submitFetch_count cfg s
  · exact submitFetch_cache cfg s
  · exact submitFetch_data cfg s

/-! ### `fetchData` in isolation (claims C5 and C10)

`runFetchData` is the body of `fetchData` by itself: the fields it can touch,
the single fetcher invocation modelled by its outcome (`Except.ok` resolved,
`Except.error` rejected), a counter of fetcher invocations, and the outcome
the `fetchData` promise itself settles with.  The `try`/`finally` shape of
the source means `isLoading` is `true` only strictly between invocation and
settlement, and is always `false` in the returned state. -/

/-- The loader fields visible to one `fetchData` call, plus a count of
fetcher invocations. -/
structure FetchCore (T R E : Type) where
  data : Option R
  isLoading : Bool
  cache : List (Option T × R)
  fetcherCalls : Nat
deriving DecidableEq

/-- One complete run of `fetchData`: set `isLoading`, invoke the fetcher
once, on success write the cache (when configured, under `key`) and `data`,
and clear `isLoading` in the `finally` block whatever the outcome.  A
rejection is re-thrown to the awaiting caller. -/
def runFetchData {T R E : Type} [DecidableEq T] (cached : Bool)
    (key : Option T) (outcome : Except E R) (st : FetchCore T R E) :
    FetchCore T R E × Except E Unit :=
  match outcome with
  | Except.ok r =>
    ({ st with fetcherCalls := st.fetcherCalls + 1,
               cache := if cached then mapSet st.cache key r else st.cache,
               data := some r, isLoading := false }, Except.ok ⟨⟩)
  | Except.error e =>
    ({ st with fetcherCalls := st.fetcherCalls + 1, isLoading := false },
      Except.error e)

theorem settleFetch_isLoading {T R : Type} [DecidableEq T] (cfg : LoaderCfg)
    (s : LoaderState T R) (res : Option R) :
    (settleFetch cfg s res).isLoading = false := by
  cases res <;> rfl

/-- Claim C5: the cache is written only on fetch success.  When the fetcher
rejects, `fetchData` leaves the cache and the displayed data exactly as they
were, invokes the fetcher exactly once (no retry), and re-throws the failure
to the caller; correspondingly, at the machine level a failed completion
leaves cache and data unchanged and (with nothing queued) starts no new
fetch. -/
theorem C5_failure_leaves_cache {T R E : Type} [DecidableEq T]
    (cached : Bool) (key : Option T) (e : E) (st : FetchCore T R E)
    (cfg : LoaderCfg) (s : LoaderState T R) (hq : s.queued = 0) :
    ((runFetchData cached key (Except.error e) st).1.cache = st.cache ∧
     (runFetchData cached key (Except.error e) st).1.data = st.data ∧
     (runFetchData cached key (Except.error e) st).1.fetcherCalls
        = st.fetcherCalls + 1 ∧
     (runFetchData cached key (Except.error e) st).2 = Except.error e) ∧
    ((stepComplete cfg s none).cache = s.cache ∧
     (stepComplete cfg s none).data = s.data ∧
     (stepComplete cfg s none).fetchCount = s.fetchCount) := by
  refine ⟨⟨rfl, rfl, rfl, rfl⟩, ?_⟩
  unfold stepComplete
  split
  · exact ⟨rfl, rfl, rfl⟩
  · next _ rest heq =>
    unfold finishGate
    have hqs : ¬ (0 < (settleFetch cfg { s with running := rest }
        (none : Option R)).queued) := by
      rw [settleFetch_queued]
      show ¬ (0 < s.queued)
      omega
    split_ifs with h1
    · exact ⟨rfl, rfl, rfl⟩
    · exact ⟨rfl, rfl, rfl⟩

/-- Concrete instantiation of `C5_failure_leaves_cache`: a rejected fetch on
a loader with one entry cached, nothing queued. -/
theorem C5_failure_leaves_cache_witness :
    (⟨some 2, none, true, [], 1, 0, [some 2], 1⟩
        : LoaderState Nat Nat).queued = 0 ∧
    (((runFetchData true (some 5) (Except.error "boom")
        (⟨some 9, true, [(some 5, 1)], 0⟩ : FetchCore Nat Nat String)).1.cache
          = [(some 5, 1)] ∧
      (runFetchData true (some 5) (Except.error "boom")
        (⟨some 9, true, [(some 5, 1)], 0⟩ : FetchCore Nat Nat String)).1.data
          = some 9 ∧
      (runFetchData true (some 5) (Except.error "boom")
        (⟨some 9, true, [(some 5, 1)], 0⟩
          : FetchCore Nat Nat String)).1.fetcherCalls = 0 + 1 ∧
      (runFetchData true (some 5) (Except.error "boom")
        (⟨some 9, true, [(some 5, 1)], 0⟩ : FetchCore Nat Nat String)).2
          = Except.error "boom") ∧
     ((stepComplete ⟨true, 1, true⟩
        (⟨some 2, none, true, [], 1, 0, [some 2], 1⟩
          : LoaderState Nat Nat) none).cache = [] ∧
      (stepComplete ⟨true, 1, true⟩
        (⟨some 2, none, true, [], 1, 0, [some 2], 1⟩
          : LoaderState Nat Nat) none).data = none ∧
      (stepComplete ⟨true, 1, true⟩
        (⟨some 2, none, true, [], 1, 0, [some 2], 1⟩
          : LoaderState Nat Nat) none).fetchCount = 1)) :=
  ⟨rfl,
    C5_failure_leaves_cache true (some 5) "boom"
      ⟨some 9, true, [(some 5, 1)], 0⟩ ⟨true, 1, true⟩
      ⟨some 2, none, true, [], 1, 0, [some 2], 1⟩ rfl⟩

/-- Claim C10: every `fetchData` invocation clears `isLoading` when it
completes, whether the fetcher resolved or rejected (the `finally` block);
at the machine level, when a fetch completes with nothing queued behind the
gate, the loader is left not loading — a fetcher failure cannot leave the
loader stuck in the loading state. -/
theorem C10_isLoading_cleared {T R E : Type} [DecidableEq T]
    (cached : Bool) (key : Option T) (outcome : Except E R)
    (st : FetchCore T R E) (cfg : LoaderCfg) (s : LoaderState T R)
    (res : Option R) (hq : s.queued = 0) (hr : s.running ≠ []) :
    (runFetchData cached key outcome st).1.isLoading = false ∧
    (stepComplete cfg s res).isLoading = false := by
  constructor
  · cases outcome <;> rfl
  · unfold stepComplete
    split
    · next hnil => exact absurd hnil hr
    · next _ rest heq =>
      unfold finishGate
      have hqs : ¬ (0 < (settleFetch cfg { s with running := rest }
          res).queued) := by
        rw [settleFetch_queued]
        show ¬ (0 < s.queued)
        omega
      split_ifs with h1
      · show (settleFetch cfg { s with running := rest } res).isLoading = false
        exact settleFetch_isLoading cfg _ res
      · exact settleFetch_isLoading cfg _ res

/-- Concrete instantiation of `C10_isLoading_cleared`: a rejected fetch on a
loader with exactly one fetch in flight and nothing queued. -/
theorem C10_isLoading_cleared_witness :
    (runFetchData false none (Except.error "nope")
      (⟨none, true, [], 0⟩ : FetchCore Nat Nat String)).1.isLoading = false ∧
    (stepComplete ⟨true, 1, false⟩
      (⟨some 1, none, true, [], 1, 0, [some 1], 1⟩
        : LoaderState Nat Nat) none).isLoading = false :=
  C10_isLoading_cleared false none (Except.error "nope") ⟨none, true, [], 0⟩
    ⟨true, 1, false⟩ ⟨some 1, none, true, [], 1, 0, [some 1], 1⟩ none rfl
    (by decide)

/-! ## Remote object lister (`listAllRemoteFiles`)

The source issues `list_objects` calls in a do/while loop driven by the
continuation token, merges each page's objects into an accumulating
`Map` with `obj.key.replace(prefix, '')` as the relative key, skips objects
whose relative key is empty (`if (relativeKey)`), and repeats while the
response carries a `next_continuation_token` (the 100 ms inter-page delay
does not affect the accumulated value).  The provider is embedded as the
list of responses it returns, in order. -/

/-- S3 object metadata (`S3Object` in the source). -/
structure S3Object where
  key : String
  size : Option Nat
  last_modified : Option String
deriving DecidableEq

/-- One page of a paginated listing (`ListObjectsResponse` in the source). -/
structure ListObjectsResponse where
  objects : List S3Object
  is_truncated : Bool
  next_continuation_token : Option String
deriving DecidableEq

/-- JS `String.prototype.replace` with a string pattern and an empty
replacement, on the character list: remove the first occurrence of `pat`,
returning the list unchanged when `pat` does not occur. -/
def removeFirst (pat : List Char) : List Char → List Char
  | [] => []
  | c :: cs =>
    if pat.isPrefixOf (c :: cs) then (c :: cs).drop pat.length
    else c :: removeFirst pat cs

/-- `key.replace(pre, '')` on strings. -/
def removeFirstStr (s pat : String) : String :=
  String.mk (removeFirst pat.data s.data)

/-- Merge one page's object list into the accumulating map: each key gets the
sync prefix removed, and an object whose relative key is empty is dropped. -/
def processObjects (pre : String) (objs : List S3Object)
    (acc : List (String × S3Object)) : List (String × S3Object) :=
  objs.foldl
    (fun m o =>
      if removeFirstStr o.key pre ≠ "" then
        mapSet m (removeFirstStr o.key pre) o
      else m)
    acc

/-- The do/while pagination loop of `listAllRemoteFiles`: process the next
response, and continue exactly when it carries a continuation token. -/
def listAllLoop (pre : String) :
    List ListObjectsResponse → List (String × S3Object) →
      List (String × S3Object)
  | [], acc => acc
  | r :: rest, acc =>
    match r.next_continuation_token with
    | some _ => listAllLoop pre rest (processObjects pre r.objects acc)
    | none => processObjects pre r.objects acc

/-- `listAllRemoteFiles`, starting from the empty map. -/
def listAllRemoteFiles (pre : String) (pages : List ListObjectsResponse) :
    List (String × S3Object) :=
  listAllLoop pre pages []

/-- A provider script that matches the loop's contract: every response except
the last carries a continuation token and the last does not. -/
def properPagination : List ListObjectsResponse → Bool
  | [] => false
  | r :: rest =>
    match rest with
    | [] => r.next_continuation_token.isNone
    | _ :: _ => r.next_continuation_token.isSome && properPagination rest

theorem processObjects_append (pre : String) (xs ys : List S3Object)
    (acc : List (String × S3Object)) :
    processObjects pre (xs ++ ys) acc
      = processObjects pre ys (processObjects pre xs acc) := by
  unfold processObjects
  rw [List.foldl_append]

theorem listAllLoop_cons_some (pre : String) (r : ListObjectsResponse)
    (rest : List ListObjectsResponse) (acc : List (String × S3Object))
    (h : r.next_continuation_token.isSome = true) :
    listAllLoop pre (r :: rest) acc
      = listAllLoop pre rest (processObjects pre r.objects acc) := by
  cases htok : r.next_continuation_token with
  | none =>
    rw [htok] at h
    simp at h
  | some t =>
    conv_lhs => rw [listAllLoop]
    rw [htok]

theorem listAllLoop_cons_none (pre : String) (r : ListObjectsResponse)
    (rest : List ListObjectsResponse) (acc : List (String × S3Object))
    (h : r.next_continuation_token = none) :
    listAllLoop pre (r :: rest) acc = processObjects pre r.objects acc := by
  unfold listAllLoop
  rw [h]

theorem listAllLoop_join (pre : String) (pages : List ListObjectsResponse)
    (h : properPagination pages = true) :
    ∀ acc, listAllLoop pre pages acc
      = processObjects pre (List.flatten (pages.map
          (fun r => r.objects))) acc := by
  induction pages with
  | nil => simp [properPagination] at h
  | cons r rest ih =>
    intro acc
    cases rest with
    | nil =>
      cases htok : r.next_continuation_token with
      | some t =>
        unfold properPagination at h
        rw [htok] at h
        simp at h
      | none =>
        unfold listAllLoop
        rw [htok]
        simp [processObjects_append]
    | cons r2 rest2 =>
      unfold properPagination at h
      rw [Bool.and_eq_true] at h
      cases htok : r.next_continuation_token with
      | none =>
        rw [htok] at h
        simp at h
      | some t =>
        rw [listAllLoop_cons_some pre r (r2 :: rest2) acc
              (by rw [htok]; rfl),
            ih h.2 (processObjects pre r.objects acc)]
        simp [processObjects_append]

/-- Claim C7: the pagination loop consumes responses until the provider
returns one without a continuation token, and the accumulated map is exactly
the map obtained by processing the concatenation of all pages' objects in
order — in particular it equals the result of a single unpaginated listing
of the same objects, however the objects are split into pages. -/
theorem C7_pagination_flatten (pre : String)
    (pages pages2 : List ListObjectsResponse)
    (h : properPagination pages = true)
    (h2 : properPagination pages2 = true)
    (hsame : List.flatten (pages.map (fun r => r.objects))
        = List.flatten (pages2.map (fun r => r.objects))) :
    listAllRemoteFiles pre pages
        = processObjects pre
            (List.flatten (pages.map (fun r => r.objects))) [] ∧
    listAllRemoteFiles pre pages = listAllRemoteFiles pre pages2 := by
  unfold listAllRemoteFiles
  constructor
  · exact listAllLoop_join pre pages h []
  · rw [listAllLoop_join pre pages h [], listAllLoop_join pre pages2 h2 [],
        hsame]

/-- The three objects used by the C7 witness, split into two pages. -/
def c7PagesSplit : List ListObjectsResponse :=
  [⟨[⟨"p/a", some 1, none⟩, ⟨"p/b", some 2, none⟩], true, some "t"⟩,
   ⟨[⟨"p/c", none, none⟩], false, none⟩]

/-- The same three objects as a single unpaginated page. -/
def c7PagesWhole : List ListObjectsResponse :=
  [⟨[⟨"p/a", some 1, none⟩, ⟨"p/b", some 2, none⟩, ⟨"p/c", none, none⟩],
    false, none⟩]

/-- Concrete instantiation of `C7_pagination_flatten`: three objects split
into two pages versus one unpaginated page. -/
theorem C7_pagination_flatten_witness :
    (properPagination c7PagesSplit = true ∧
      properPagination c7PagesWhole = true ∧
      List.flatten (c7PagesSplit.map (fun r => r.objects))
        = List.flatten (c7PagesWhole.map (fun r => r.objects))) ∧
    (listAllRemoteFiles "p/" c7PagesSplit
        = processObjects "p/"
            (List.flatten (c7PagesSplit.map (fun r => r.objects))) [] ∧
      listAllRemoteFiles "p/" c7PagesSplit
        = listAllRemoteFiles "p/" c7PagesWhole) :=
  ⟨⟨rfl, rfl, rfl⟩,
    C7_pagination_flatten "p/" c7PagesSplit c7PagesWhole rfl rfl rfl⟩

/-- Characterisation of `List.isPrefixOf`: a successful check yields the tail
past the pattern. -/
theorem isPrefixOf_exists {pat : List Char} :
    ∀ {s : List Char}, pat.isPrefixOf s = true → ∃ t, s = pat ++ t := by
  induction pat with
  | nil => exact fun {s} _ => ⟨s, rfl⟩
  | cons p ps ih =>
    intro s h
    cases s with
    | nil => simp [List.isPrefixOf] at h
    | cons c cs =>
      rw [List.isPrefixOf, Bool.and_eq_true, beq_iff_eq] at h
      obtain ⟨t, ht⟩ := ih h.2
      exact ⟨t, by rw [h.1, ht]; rfl⟩

/-- When the pattern occurs as a leading segment, the first occurrence that
`replace` removes is that leading segment: the result is the plain suffix. -/
theorem removeFirst_of_leading {pat s : List Char}
    (h : pat.isPrefixOf s = true) :
    removeFirst pat s = s.drop pat.length := by
  cases s with
  | nil =>
    cases pat with
    | nil => rfl
    | cons p ps => simp [List.isPrefixOf] at h
  | cons c cs =>
    unfold removeFirst
    rw [if_pos h]

theorem string_mk_eq_empty (l : List Char) : (String.mk l = "") ↔ l = [] := by
  constructor
  · intro h
    have h2 := congrArg String.data h
    simpa using h2
  · intro h
    subst h
    rfl

/-- Claim C6: when merging a listed object into the map, its key is inserted
with the sync prefix stripped (the listing returns keys that carry the
prefix, so the first occurrence removed by `replace` is the leading one),
and an object whose key equals the prefix exactly — empty relative key — is
not inserted at all. -/
theorem C6_strip_and_drop (pre : String) (o : S3Object)
    (acc : List (String × S3Object))
    (h : pre.data.isPrefixOf o.key.data = true) :
    processObjects pre [o] acc
      = if o.key = pre then acc
        else mapSet acc (String.mk (o.key.data.drop pre.data.length)) o := by
  unfold processObjects
  simp only [List.foldl_cons, List.foldl_nil]
  have hr : removeFirstStr o.key pre
      = String.mk (o.key.data.drop pre.data.length) := by
    unfold removeFirstStr
    rw [removeFirst_of_leading h]
  rw [hr]
  obtain ⟨t, ht⟩ := isPrefixOf_exists h
  have hdrop : o.key.data.drop pre.data.length = t := by
    rw [ht]
    exact List.drop_left pre.data t
  by_cases he : o.key = pre
  · rw [if_pos he]
    have hd : o.key.data.drop pre.data.length = [] := by
      rw [he]
      exact List.drop_length pre.data
    rw [hd]
    simp [string_mk_eq_empty]
  · rw [if_neg he]
    have ht2 : t ≠ [] := by
      intro h0
      apply he
      apply String.ext
      rw [ht, h0, List.append_nil]
    rw [hdrop]
    simp [string_mk_eq_empty, ht2]

/-- Concrete instantiation of `C6_strip_and_drop`: prefix `p/`, one object
whose key extends the prefix. -/
theorem C6_strip_and_drop_witness :
    ("p/".data.isPrefixOf ("p/a.txt" : String).data = true) ∧
    processObjects "p/" [⟨"p/a.txt", some 3, none⟩] []
      = if ("p/a.txt" : String) = "p/" then ([] : List (String × S3Object))
        else mapSet [] (String.mk (("p/a.txt" : String).data.drop
            ("p/" : String).data.length)) ⟨"p/a.txt", some 3, none⟩ :=
  ⟨by decide, C6_strip_and_drop "p/" ⟨"p/a.txt", some 3, none⟩ [] (by decide)⟩

/-! ## Content-addressed namer (`calculateFileHash`)

The source streams the file through an incremental Blake3 hasher
(`hash.update(chunk)` per chunk read from the stream, then `hash.digest()`),
encodes the digest with base32-crockford and lowercases it.  The hasher is
embedded by its accumulated byte stream; the Blake3 compression itself and
the base32-crockford alphabet are abstract parameters — the claims concern
only how the file content reaches them. -/

/-- Incremental hasher state: the bytes fed so far. -/
structure HashState where
  buf : List Nat
deriving DecidableEq

/-- `blake3.create()`. -/
def HashState.create : HashState := ⟨[]⟩

/-- `hash.update(chunk)`. -/
def HashState.update (h : HashState) (chunk : List Nat) : HashState :=
  ⟨h.buf ++ chunk⟩

/-- `hash.digest()`, with the Blake3 compression abstract. -/
def HashState.digest (compress : List Nat → List Nat) (h : HashState) :
    List Nat :=
  compress h.buf

/-- `calculateFileHash`: feed every chunk of the file stream to the hasher,
digest, encode (base32-crockford, abstract) and lowercase. -/
def calculateFileHash (compress : List Nat → List Nat)
    (encode : List Nat → String) (chunks : List (List Nat)) : String :=
  (encode ((chunks.foldl HashState.update HashState.create).digest
    compress)).toLower

theorem hash_stream_buf (chunks : List (List Nat)) :
    ∀ h0 : HashState,
      (chunks.foldl HashState.update h0).buf = h0.buf ++ chunks.flatten := by
  induction chunks with
  | nil => intro h0; simp
  | cons c rest ih =>
    intro h0
    rw [List.foldl_cons, ih, List.flatten_cons]
    unfold HashState.update
    simp

/-- Claim C9: the content-addressed name is a deterministic function of the
file's byte content alone.  Any two streams delivering the same bytes —
repeated reads of one file, or two files with identical content, regardless
of how the stream splits them into chunks — produce the same name. -/
theorem C9_content_addressed (compress : List Nat → List Nat)
    (encode : List Nat → String) (chunks1 chunks2 : List (List Nat))
    (h : chunks1.flatten = chunks2.flatten) :
    calculateFileHash compress encode chunks1
      = calculateFileHash compress encode chunks2 := by
  unfold calculateFileHash HashState.digest
  rw [hash_stream_buf, hash_stream_buf, h]

/-- Concrete instantiation of `C9_content_addressed`: the same four bytes
chunked two different ways. -/
theorem C9_content_addressed_witness :
    ([[1, 2], [3, 4]] : List (List Nat)).flatten
        = ([[1], [2, 3], [4]] : List (List Nat)).flatten ∧
    calculateFileHash id (fun l => toString l.length) [[1, 2], [3, 4]]
      = calculateFileHash id (fun l => toString l.length) [[1], [2, 3], [4]] :=
  ⟨rfl, C9_content_addressed id (fun l => toString l.length)
    [[1, 2], [3, 4]] [[1], [2, 3], [4]] rfl⟩

/-! ## Persisted configuration loaders (`loadS3Instances`, `initializePlans`)

Both load a document from a tauri key-value store and validate it against a
zod array schema.  `loadS3Instances` uses `safeParse` and returns `[]` when
validation fails; `initializePlans` uses `parse`, which throws a `ZodError`
on malformed (or missing, `undefined`) data.  The stored document is
embedded as a JSON-like value, with `undef` for a missing key. -/

/-- A value as read back from the key-value store. -/
inductive StoredVal where
  | undef
  | null
  | str (s : String)
  | num (n : Int)
  | boolean (b : Bool)
  | arr (items : List StoredVal)
  | obj (fields : List (String × StoredVal))

/-- The `S3InstanceZod` record: four required string fields. -/
structure S3Instance where
  endpoint_url : String
  access_key_id : String
  secret_access_key : String
  region : String
deriving DecidableEq

/-- The `SyncPlanZod` record: five required string fields. -/
structure SyncPlan where
  id : String
  bucket : String
  s3_instance_id : String
  local_dir : String
  remote_dir : String
deriving DecidableEq

/-- Field lookup in a stored object. -/
def getField (fields : List (String × StoredVal)) (k : String) :
    Option StoredVal :=
  (fields.find? (fun f => decide (f.1 = k))).map (fun f => f.2)

/-- zod `string()`. -/
def parseString : StoredVal → Option String
  | StoredVal.str s => some s
  | _ => none

/-- zod `object({...})` for `S3InstanceZod`. -/
def parseS3Instance : StoredVal → Option S3Instance
  | StoredVal.obj fields =>
    match (getField fields "endpoint_url").bind parseString,
          (getField fields "access_key_id").bind parseString,
          (getField fields "secret_access_key").bind parseString,
          (getField fields "region").bind parseString with
    | some e, some a, some s, some r => some ⟨e, a, s, r⟩
    | _, _, _, _ => none
  | _ => none

/-- zod `object({...})` for `SyncPlanZod`. -/
def parseSyncPlan : StoredVal → Option SyncPlan
  | StoredVal.obj fields =>
    match (getField fields "id").bind parseString,
          (getField fields "bucket").bind parseString,
          (getField fields "s3_instance_id").bind parseString,
          (getField fields "local_dir").bind parseString,
          (getField fields "remote_dir").bind parseString with
    | some i, some b, some s, some l, some r => some ⟨i, b, s, l, r⟩
    | _, _, _, _, _ => none
  | _ => none

/-- zod `array(p)` over the items of a stored array. -/
def parseItems {α : Type} (p : StoredVal → Option α) :
    List StoredVal → Option (List α)
  | [] => some []
  | v :: rest =>
    match p v, parseItems p rest with
    | some a, some as => some (a :: as)
    | _, _ => none

/-- zod `array(S3InstanceZod)`. -/
def parseS3Instances : StoredVal → Option (List S3Instance)
  | StoredVal.arr items => parseItems parseS3Instance items
  | _ => none

/-- zod `array(SyncPlanZod)`. -/
def parseSyncPlans : StoredVal → Option (List SyncPlan)
  | StoredVal.arr items => parseItems parseSyncPlan items
  | _ => none

/-- `loadS3Instances`: `safeParse` the stored document and fall back to the
empty list when validation is unsuccessful.  The return type is a plain
list — no validation failure can escape to the caller. -/
def loadS3Instances (stored : StoredVal) : List S3Instance :=
  match parseS3Instances stored with
  | some l => l
  | none => []

/-- zod's `parse` throws this on validation failure. -/
inductive ZodError where
  | validation
deriving DecidableEq

/-- The load step of `initializePlans`: `SyncPlansArrayZod.parse(data)` —
zod's `parse` throws on malformed or missing data, and the assignment to the
store state happens only on success. -/
def initializePlans (stored : StoredVal) : Except ZodError (List SyncPlan) :=
  match parseSyncPlans stored with
  | some l => Except.ok l
  | none => Except.error ZodError.validation

/-- Claim C3, counterexample to the claim as stated: with missing stored
data (a fresh install — the store yields `undefined`, and the same happens
for any malformed document) `initializePlans` does not return the empty
collection: it throws a zod validation error to its caller. -/
theorem C3_counterexample :
    (∀ l, initializePlans StoredVal.undef ≠ Except.ok l) ∧
    initializePlans StoredVal.undef = Except.error ZodError.validation :=
  ⟨fun _ h => Except.noConfusion h, rfl⟩

/-- Claim C3, amended: of the two persisted-configuration loads, only
`loadS3Instances` treats malformed or missing stored data as an
empty-collection fallback (it validates with `safeParse` and cannot throw);
`initializePlans` validates with `parse` and propagates the validation
failure to its caller instead. -/
theorem C3_fallback_only_s3instances (v : StoredVal)
    (h1 : parseS3Instances v = none) (h2 : parseSyncPlans v = none) :
    loadS3Instances v = [] ∧
    initializePlans v = Except.error ZodError.validation := by
  unfold loadS3Instances initializePlans
  rw [h1, h2]
  exact ⟨rfl, rfl⟩

/-- Concrete instantiation of `C3_fallback_only_s3instances` at the missing
document. -/
theorem C3_fallback_only_s3instances_witness :
    (parseS3Instances StoredVal.undef = none ∧
      parseSyncPlans StoredVal.undef = none) ∧
    (loadS3Instances StoredVal.undef = [] ∧
      initializePlans StoredVal.undef = Except.error ZodError.validation) :=
  ⟨⟨rfl, rfl⟩, C3_fallback_only_s3instances StoredVal.undef rfl rfl⟩

/-! ## Local tree scanner (`listFilesRecursiveWithInfo`)

`scanDir` lists the current directory (the tauri `list_directory` command,
which throws when the directory cannot be read), then walks the entries: a
directory is entered recursively, a file is inserted into the shared map
under `entryRelativePath` — built from the previous relative path and the
basename of the entry's host path (`entry.path.split(/[/\\]/).pop()`) —
normalised to forward slashes.  There is no try/catch anywhere in the scan:
any listing error propagates out of `listFilesRecursiveWithInfo`.

The file system is embedded as a tree whose directories carry a `readable`
flag, and the host path separator (what the backend puts between the parent
path and the entry name) is a parameter `sep`. -/

/-- File-system entry metadata (`FileInfo` in the source). -/
structure FileInfo where
  path : String
  is_dir : Bool
  size : Nat
  last_modified : String
deriving DecidableEq

/-- A local file-system subtree.  Listing an unreadable directory makes
`list_directory` throw. -/
inductive FsNode where
  | file (name : String) (size : Nat) (modified : String)
  | dir (name : String) (readable : Bool) (children : List FsNode)

/-- The entry's own name. -/
def FsNode.name : FsNode → String
  | FsNode.file n _ _ => n
  | FsNode.dir n _ _ => n

/-- The characters the `split(/[/\\]/)` regex splits on. -/
def isSep (c : Char) : Bool := c = '/' || c = '\\'

/-- JS `String.prototype.split` on that regex, over the character list. -/
def splitSeps : List Char → List (List Char)
  | [] => [[]]
  | c :: cs =>
    match splitSeps cs with
    | [] => [[]]
    | s :: rest => if isSep c then [] :: s :: rest else (c :: s) :: rest

/-- `entry.path.split(/[/\\]/).pop() || ''`. -/
def basename (p : String) : String :=
  String.mk ((splitSeps p.data).getLastD [])

/-- `entryRelativePath`: previous relative path joined with the basename of
the entry's host path (the empty previous path is falsy). -/
def entryRel (relativePath entryPath : String) : String :=
  if relativePath = "" then basename entryPath
  else relativePath ++ "/" ++ basename entryPath

/-- `entryRelativePath.replace(/\\/g, '/')`. -/
def normalizeKey (s : String) : String :=
  String.mk (s.data.map (fun c => if c = '\\' then '/' else c))

/-- The loop body of `scanDir` over the entries of `currentDir`, with the
recursive descent.  An unreadable directory corresponds to the inner
`listDirectory` call throwing, which aborts the whole scan — there is no
catch along the way. -/
def scanChildren (sep : String) :
    List FsNode → String → String → List (String × FileInfo) →
      Except String (List (String × FileInfo))
  | [], _, _, files => Except.ok files
  | FsNode.file nm sz md :: rest, currentDir, relativePath, files =>
      scanChildren sep rest currentDir relativePath
        (mapSet files
          (normalizeKey (entryRel relativePath (currentDir ++ sep ++ nm)))
          ⟨currentDir ++ sep ++ nm, false, sz, md⟩)
  | FsNode.dir nm rd cs :: rest, currentDir, relativePath, files =>
      if rd then
        match scanChildren sep cs (currentDir ++ sep ++ nm)
            (entryRel relativePath (currentDir ++ sep ++ nm)) files with
        | Except.ok files2 =>
            scanChildren sep rest currentDir relativePath files2
        | Except.error e => Except.error e
      else Except.error ("permission denied: " ++ currentDir ++ sep ++ nm)

/-- `listFilesRecursiveWithInfo`: scan the root directory with an empty
relative path and an empty map.  A missing or unreadable root makes the
first `listDirectory` call throw. -/
def listFilesRecursiveWithInfo (sep : String) (root : FsNode)
    (dirPath : String) : Except String (List (String × FileInfo)) :=
  match root with
  | FsNode.file _ _ _ => Except.error ("not a directory: " ++ dirPath)
  | FsNode.dir _ rd cs =>
      if rd then scanChildren sep cs dirPath "" []
      else Except.error ("permission denied: " ++ dirPath)

/-- Every directory of the forest is readable. -/
def allReadableForest : List FsNode → Bool
  | [] => true
  | FsNode.file _ _ _ :: rest => allReadableForest rest
  | FsNode.dir _ rd cs :: rest =>
      rd && allReadableForest cs && allReadableForest rest

/-- The scan of this node can succeed: it is a readable directory whose
subtree contains no unreadable directory. -/
def rootScannable : FsNode → Bool
  | FsNode.file _ _ _ => false
  | FsNode.dir _ rd cs => rd && allReadableForest cs

theorem scanChildren_ok_iff (sep : String) :
    ∀ (cs : List FsNode) (dir rel : String)
      (acc : List (String × FileInfo)),
      (∃ m, scanChildren sep cs dir rel acc = Except.ok m)
        ↔ allReadableForest cs = true := by
  intro cs dir rel acc
  induction cs, dir, rel, acc using scanChildren.induct sep with
  | case1 dir rel files =>
    simp [scanChildren, allReadableForest]
  | case2 nm sz md rest dir rel files ih =>
    simp only [scanChildren, allReadableForest]
    exact ih
  | case3 nm cs rest dir rel files files2 heq ihsub ihrest =>
    have hcs : allReadableForest cs = true := ihsub.mp ⟨files2, heq⟩
    simp only [scanChildren, if_pos rfl, heq, allReadableForest, hcs,
      Bool.true_and, Bool.and_true]
    exact ihrest
  | case4 nm cs rest dir rel files e heq ihsub =>
    have hcs : allReadableForest cs = false := by
      cases h : allReadableForest cs with
      | true =>
        obtain ⟨m, hm⟩ := ihsub.mpr h
        rw [heq] at hm
        exact Except.noConfusion hm
      | false => rfl
    simp [scanChildren, heq, allReadableForest, hcs]
  | case5 nm rd cs rest dir rel files hrd =>
    have hrd2 : rd = false := by
      cases rd
      · rfl
      · exact absurd rfl hrd
    subst hrd2
    simp [scanChildren, allReadableForest]

/-- Claim C2, amended: an error on an unreadable subtree is not skipped —
there is no catch in the scan, so the error aborts the whole scan and no map
is returned.  The scan produces a map exactly when the root is a readable
directory and every directory below it is readable. -/
theorem C2_scan_aborts (sep : String) (root : FsNode) (dirPath : String) :
    (∃ m, listFilesRecursiveWithInfo sep root dirPath = Except.ok m)
      ↔ rootScannable root = true := by
  cases root with
  | file nm sz md =>
    simp [listFilesRecursiveWithInfo, rootScannable]
  | dir nm rd cs =>
    cases rd with
    | false => simp [listFilesRecursiveWithInfo, rootScannable]
    | true =>
      simp only [listFilesRecursiveWithInfo, if_pos rfl, rootScannable,
        Bool.true_and]
      exact scanChildren_ok_iff sep cs dirPath "" []

/-- The tree used by the C2 counterexample: a readable root with one
readable file before and one after an unreadable subdirectory that itself
contains a file. -/
def c2Tree : FsNode :=
  FsNode.dir "root" true
    [FsNode.file "a.txt" 3 "m1",
     FsNode.dir "locked" false [FsNode.file "hidden.txt" 1 "m2"],
     FsNode.file "c.txt" 5 "m3"]

/-- Claim C2, counterexample to the claim as stated: scanning `c2Tree` hits
the unreadable subtree `locked` and aborts with its error — the scan does
not return a map at all, in particular not one with the entries of the
readable subtrees `a.txt` and `c.txt`. -/
theorem C2_counterexample :
    listFilesRecursiveWithInfo "/" c2Tree "base"
        = Except.error ("permission denied: base/locked") ∧
    ∀ m, listFilesRecursiveWithInfo "/" c2Tree "base" ≠ Except.ok m := by
  have h : listFilesRecursiveWithInfo "/" c2Tree "base"
      = Except.error ("permission denied: base/locked") := by
    simp [listFilesRecursiveWithInfo, c2Tree, scanChildren]
  refine ⟨h, fun m hm => ?_⟩
  rw [h] at hm
  exact Except.noConfusion hm

/-! ### One entry per file (claim C8)

The spec-level description of a scan: every file contributes its relative
path, built by joining names with a forward slash; directories contribute no
entry.  The claim is proved for well-formed readable trees: entry names are
non-empty, contain no separator character, and are unique among siblings
(as they are on a real file system). -/

/-- A well-formed entry name: non-empty, no separator characters. -/
def goodName (s : String) : Bool :=
  decide (s ≠ "") &&
    s.data.all (fun c => decide (c ≠ '/') && decide (c ≠ '\\'))

/-- Well-formed readable forest: names are good and unique among siblings,
directories are readable. -/
def wfForest : List FsNode → Bool
  | [] => true
  | FsNode.file nm _ _ :: rest =>
      goodName nm && rest.all (fun m => decide (FsNode.name m ≠ nm)) &&
        wfForest rest
  | FsNode.dir nm rd cs :: rest =>
      goodName nm && rd && wfForest cs &&
        rest.all (fun m => decide (FsNode.name m ≠ nm)) && wfForest rest

/-- Join a relative path and a name with a forward slash (an empty relative
path yields just the name): the spec-level form of `entryRelativePath`. -/
def joinRel (rel nm : String) : String :=
  if rel = "" then nm else rel ++ "/" ++ nm

/-- Relative keys of all files of the forest, in traversal order. -/
def fileKeys : List FsNode → String → List String
  | [], _ => []
  | FsNode.file nm _ _ :: rest, rel => joinRel rel nm :: fileKeys rest rel
  | FsNode.dir nm _ cs :: rest, rel =>
      fileKeys cs (joinRel rel nm) ++ fileKeys rest rel

/-- Number of regular files in the forest. -/
def totalFiles : List FsNode → Nat
  | [] => 0
  | FsNode.file _ _ _ :: rest => 1 + totalFiles rest
  | FsNode.dir _ _ cs :: rest => totalFiles cs + totalFiles rest

/-- The map a successful scan produces: one entry per file, keyed by its
relative path, valued by its host metadata. -/
def fileEntries (sep : String) :
    List FsNode → String → String → List (String × FileInfo)
  | [], _, _ => []
  | FsNode.file nm sz md :: rest, dir, rel =>
      (joinRel rel nm, ⟨dir ++ sep ++ nm, false, sz, md⟩)
        :: fileEntries sep rest dir rel
  | FsNode.dir nm _ cs :: rest, dir, rel =>
      fileEntries sep cs (dir ++ sep ++ nm) (joinRel rel nm)
        ++ fileEntries sep rest dir rel

theorem fileEntries_keys (sep : String) :
    ∀ (cs : List FsNode) (dir rel : String),
      (fileEntries sep cs dir rel).map Prod.fst = fileKeys cs rel := by
  intro cs dir rel
  induction cs, dir, rel using fileEntries.induct sep with
  | case1 dir rel => simp [fileEntries, fileKeys]
  | case2 nm sz md rest dir rel ih =>
    simp only [fileEntries, fileKeys, List.map_cons, ih]
  | case3 nm rd cs rest dir rel ihsub ihrest =>
    simp only [fileEntries, fileKeys, List.map_append, ihsub, ihrest]

theorem fileEntries_length (sep : String) :
    ∀ (cs : List FsNode) (dir rel : String),
      (fileEntries sep cs dir rel).length = totalFiles cs := by
  intro cs dir rel
  induction cs, dir, rel using fileEntries.induct sep with
  | case1 dir rel => simp [fileEntries, totalFiles]
  | case2 nm sz md rest dir rel ih =>
    simp only [fileEntries, totalFiles, List.length_cons, ih]
    omega
  | case3 nm rd cs rest dir rel ihsub ihrest =>
    simp only [fileEntries, totalFiles, List.length_append, ihsub, ihrest]

theorem goodName_ne_empty {s : String} (h : goodName s = true) : s ≠ "" := by
  unfold goodName at h
  rw [Bool.and_eq_true] at h
  simpa using h.1

theorem goodName_no_slash {s : String} (h : goodName s = true) :
    ∀ c ∈ s.data, c ≠ '/' := by
  unfold goodName at h
  rw [Bool.and_eq_true, List.all_eq_true] at h
  intro c hc
  have h2 := h.2 c hc
  rw [Bool.and_eq_true] at h2
  simpa using h2.1

theorem goodName_no_bslash {s : String} (h : goodName s = true) :
    ∀ c ∈ s.data, c ≠ '\\' := by
  unfold goodName at h
  rw [Bool.and_eq_true, List.all_eq_true] at h
  intro c hc
  have h2 := h.2 c hc
  rw [Bool.and_eq_true] at h2
  simpa using h2.2

theorem goodName_no_sep {s : String} (h : goodName s = true) :
    ∀ c ∈ s.data, isSep c = false := by
  intro c hc
  unfold isSep
  have h1 := goodName_no_slash h c hc
  have h2 := goodName_no_bslash h c hc
  simp [h1, h2]

theorem wfForest_file {nm : String} {sz : Nat} {md : String}
    {rest : List FsNode}
    (h : wfForest (FsNode.file nm sz md :: rest) = true) :
    goodName nm = true ∧ (∀ m ∈ rest, FsNode.name m ≠ nm) ∧
      wfForest rest = true := by
  unfold wfForest at h
  rw [Bool.and_eq_true, Bool.and_eq_true, List.all_eq_true] at h
  refine ⟨h.1.1, fun m hm => ?_, h.2⟩
  simpa using h.1.2 m hm

theorem wfForest_dir {nm : String} {rd : Bool} {cs rest : List FsNode}
    (h : wfForest (FsNode.dir nm rd cs :: rest) = true) :
    goodName nm = true ∧ rd = true ∧ wfForest cs = true ∧
      (∀ m ∈ rest, FsNode.name m ≠ nm) ∧ wfForest rest = true := by
  unfold wfForest at h
  rw [Bool.and_eq_true, Bool.and_eq_true, Bool.and_eq_true, Bool.and_eq_true,
    List.all_eq_true] at h
  refine ⟨h.1.1.1.1, h.1.1.1.2, h.1.1.2, fun m hm => ?_, h.2⟩
  simpa using h.1.2 m hm

theorem splitSeps_ne_nil : ∀ l : List Char, splitSeps l ≠ [] := by
  intro l
  cases l with
  | nil => simp [splitSeps]
  | cons c cs =>
    unfold splitSeps
    cases h : splitSeps cs with
    | nil => simp
    | cons s rest =>
      by_cases hc : isSep c = true <;> simp [hc]

theorem splitSeps_no_sep :
    ∀ {l : List Char}, (∀ c ∈ l, isSep c = false) → splitSeps l = [l] := by
  intro l
  induction l with
  | nil => intro _; rfl
  | cons c cs ih =>
    intro h
    unfold splitSeps
    rw [ih (fun d hd => h d (List.mem_cons_of_mem c hd))]
    have hc : isSep c = false := h c (List.mem_cons_self c cs)
    simp [hc]

theorem splitSeps_cons_eq {cs s : List Char} {rest : List (List Char)}
    (h : splitSeps cs = s :: rest) (c : Char) :
    splitSeps (c :: cs)
      = if isSep c then [] :: s :: rest else (c :: s) :: rest := by
  conv_lhs => rw [splitSeps]
  rw [h]

theorem splitSeps_cons_length (d : Char) (ds : List Char) :
    (splitSeps (d :: ds)).length
      = if isSep d then (splitSeps ds).length + 1
        else (splitSeps ds).length := by
  cases h : splitSeps ds with
  | nil => exact absurd h (splitSeps_ne_nil ds)
  | cons s rest =>
    rw [splitSeps_cons_eq h d]
    by_cases hd : isSep d = true <;> simp [hd]

theorem splitSeps_length_ge_two {c : Char} (hc : isSep c = true) :
    ∀ {l : List Char}, c ∈ l → 2 ≤ (splitSeps l).length := by
  intro l
  induction l with
  | nil => intro h; cases h
  | cons d ds ih =>
    intro hmem
    rw [splitSeps_cons_length]
    rcases List.mem_cons.mp hmem with heq | hmem2
    · subst heq
      rw [if_pos hc]
      have hne := splitSeps_ne_nil ds
      have hlen : 1 ≤ (splitSeps ds).length := by
        cases h2 : splitSeps ds with
        | nil => exact absurd h2 hne
        | cons a b => simp
      omega
    · have := ih hmem2
      by_cases hd : isSep d = true <;> simp [hd] <;> omega

theorem getLastD_cons_ne_nil {α : Type} (a : α) {l : List α} (d : α)
    (h : l ≠ []) : (a :: l).getLastD d = l.getLastD d := by
  rw [List.getLastD_cons, List.getLastD_eq_getLast?, List.getLastD_eq_getLast?,
    List.getLast?_eq_getLast l h]
  simp

theorem splitSeps_last_append {c : Char} (hc : isSep c = true) :
    ∀ (x y : List Char),
      (splitSeps (x ++ c :: y)).getLastD [] = (splitSeps y).getLastD [] := by
  intro x
  induction x with
  | nil =>
    intro y
    show (splitSeps (c :: y)).getLastD [] = (splitSeps y).getLastD []
    cases h : splitSeps y with
    | nil => exact absurd h (splitSeps_ne_nil y)
    | cons s rest =>
      rw [splitSeps_cons_eq h c, if_pos hc,
        getLastD_cons_ne_nil ([] : List Char) ([] : List Char) (by simp)]
  | cons d ds ih =>
    intro y
    show (splitSeps (d :: (ds ++ c :: y))).getLastD [] = _
    cases h : splitSeps (ds ++ c :: y) with
    | nil => exact absurd h (splitSeps_ne_nil _)
    | cons s rest =>
      have hlen : 2 ≤ (splitSeps (ds ++ c :: y)).length :=
        splitSeps_length_ge_two hc (by simp)
      rw [h] at hlen
      have hrest : rest ≠ [] := by
        cases rest with
        | nil => simp at hlen
        | cons a b => simp
      have hbase : (s :: rest).getLastD [] = (splitSeps y).getLastD [] := by
        rw [← h]
        exact ih y
      rw [splitSeps_cons_eq h d]
      by_cases hd : isSep d = true
      · rw [if_pos hd,
          getLastD_cons_ne_nil ([] : List Char) ([] : List Char) (by simp)]
        exact hbase
      · rw [if_neg hd, getLastD_cons_ne_nil (d :: s) ([] : List Char) hrest]
        rw [getLastD_cons_ne_nil s ([] : List Char) hrest] at hbase
        exact hbase

theorem basename_join {sep : String} (hsep : sep = "/" ∨ sep = "\\")
    (dir nm : String) (hnm : ∀ c ∈ nm.data, isSep c = false) :
    basename (dir ++ sep ++ nm) = nm := by
  obtain ⟨sc, hdata, hsc⟩ : ∃ c, sep.data = [c] ∧ isSep c = true := by
    rcases hsep with h | h <;> subst h
    · exact ⟨'/', rfl, rfl⟩
    · exact ⟨'\\', rfl, rfl⟩
  unfold basename
  have hd : (dir ++ sep ++ nm).data = dir.data ++ sc :: nm.data := by
    rw [String.data_append, String.data_append, hdata]
    simp
  rw [hd, splitSeps_last_append hsc dir.data nm.data, splitSeps_no_sep hnm]
  rfl

theorem map_norm_id : ∀ {l : List Char}, (∀ c ∈ l, c ≠ '\\') →
    l.map (fun c => if c = '\\' then '/' else c) = l := by
  intro l
  induction l with
  | nil => intro _; rfl
  | cons c cs ih =>
    intro h
    rw [List.map_cons, ih (fun d hd => h d (List.mem_cons_of_mem c hd))]
    have hc : c ≠ '\\' := h c (List.mem_cons_self c cs)
    simp [hc]

theorem normalizeKey_id {s : String} (h : ∀ c ∈ s.data, c ≠ '\\') :
    normalizeKey s = s := by
  unfold normalizeKey
  apply String.ext
  show s.data.map _ = s.data
  exact map_norm_id h

theorem entryRel_join {sep : String} (hsep : sep = "/" ∨ sep = "\\")
    (rel dir nm : String) (hnm : ∀ c ∈ nm.data, isSep c = false) :
    entryRel rel (dir ++ sep ++ nm) = joinRel rel nm := by
  unfold entryRel joinRel
  rw [basename_join hsep dir nm hnm]

theorem joinRel_data (nm : String) {rel : String} (h : rel ≠ "") :
    (joinRel rel nm).data = rel.data ++ '/' :: nm.data := by
  unfold joinRel
  rw [if_neg h, String.data_append, String.data_append]
  simp

theorem joinRel_ne_empty {rel nm : String} (h : nm ≠ "") :
    joinRel rel nm ≠ "" := by
  by_cases hrel : rel = ""
  · unfold joinRel
    rw [if_pos hrel]
    exact h
  · intro h2
    have h3 := congrArg String.data h2
    rw [joinRel_data nm hrel] at h3
    simp at h3

theorem joinRel_no_bslash {rel nm : String}
    (hrel : ∀ c ∈ rel.data, c ≠ '\\') (hnm : ∀ c ∈ nm.data, c ≠ '\\') :
    ∀ c ∈ (joinRel rel nm).data, c ≠ '\\' := by
  intro c hc
  by_cases hr : rel = ""
  · unfold joinRel at hc
    rw [if_pos hr] at hc
    exact hnm c hc
  · rw [joinRel_data nm hr] at hc
    rcases List.mem_append.mp hc with h1 | h2
    · exact hrel c h1
    · rcases List.mem_cons.mp h2 with h3 | h4
      · subst h3; decide
      · exact hnm c h4

/-- The key `k` lies at or below the relative path `base`: it is `base`
itself or extends it past a forward slash. -/
def keyExt (base k : String) : Prop :=
  ∃ s, k.data = base.data ++ s ∧ (s = [] ∨ ∃ t, s = '/' :: t)

theorem keyExt_refl (b : String) : keyExt b b := ⟨[], by simp, Or.inl rfl⟩

theorem seg_append_inj :
    ∀ (a b s₁ s₂ : List Char),
      (∀ c ∈ a, c ≠ '/') → (∀ c ∈ b, c ≠ '/') →
      (s₁ = [] ∨ ∃ t, s₁ = '/' :: t) → (s₂ = [] ∨ ∃ t, s₂ = '/' :: t) →
      a ++ s₁ = b ++ s₂ → a = b := by
  intro a
  induction a with
  | nil =>
    intro b s₁ s₂ _ hb hs₁ _ heq
    cases b with
    | nil => rfl
    | cons d b2 =>
      exfalso
      rcases hs₁ with h | ⟨t, ht⟩
      · subst h; simp at heq
      · subst ht
        rw [List.nil_append, List.cons_append] at heq
        injection heq with h1 _
        exact hb d (List.mem_cons_self d b2) h1.symm
  | cons c a2 ih =>
    intro b s₁ s₂ ha hb hs₁ hs₂ heq
    cases b with
    | nil =>
      exfalso
      rcases hs₂ with h | ⟨t, ht⟩
      · subst h; simp at heq
      · subst ht
        rw [List.nil_append, List.cons_append] at heq
        injection heq with h1 _
        exact ha c (List.mem_cons_self c a2) h1
    | cons d b2 =>
      rw [List.cons_append, List.cons_append] at heq
      injection heq with h1 h2
      subst h1
      rw [ih b2 s₁ s₂ (fun x hx => ha x (List.mem_cons_of_mem c hx))
        (fun x hx => hb x (List.mem_cons_of_mem c hx)) hs₁ hs₂ h2]

theorem keyExt_of_child {base x k : String} (hb : base ≠ "")
    (h : keyExt (joinRel base x) k) : keyExt base k := by
  obtain ⟨s, hs, _⟩ := h
  refine ⟨'/' :: (x.data ++ s), ?_, Or.inr ⟨_, rfl⟩⟩
  rw [hs, joinRel_data x hb]
  simp

theorem keyExt_ne {rel a b : String}
    (hga : goodName a = true) (hgb : goodName b = true) (hne : a ≠ b)
    {k₁ k₂ : String} (h₁ : keyExt (joinRel rel a) k₁)
    (h₂ : keyExt (joinRel rel b) k₂) : k₁ ≠ k₂ := by
  intro heq
  subst heq
  obtain ⟨s₁, hs₁, hc₁⟩ := h₁
  obtain ⟨s₂, hs₂, hc₂⟩ := h₂
  apply hne
  by_cases hr : rel = ""
  · subst hr
    have ea : (joinRel "" a).data = a.data := by
      unfold joinRel
      rw [if_pos rfl]
    have eb : (joinRel "" b).data = b.data := by
      unfold joinRel
      rw [if_pos rfl]
    rw [ea] at hs₁
    rw [eb] at hs₂
    exact String.ext (seg_append_inj a.data b.data s₁ s₂
      (goodName_no_slash hga) (goodName_no_slash hgb) hc₁ hc₂
      (hs₁.symm.trans hs₂))
  · rw [joinRel_data a hr] at hs₁
    rw [joinRel_data b hr] at hs₂
    have e0 := hs₁.symm.trans hs₂
    rw [List.append_assoc, List.append_assoc, List.cons_append,
      List.cons_append] at e0
    have e1 := List.append_cancel_left e0
    injection e1 with _ e2
    exact String.ext (seg_append_inj a.data b.data s₁ s₂
      (goodName_no_slash hga) (goodName_no_slash hgb) hc₁ hc₂ e2)

theorem wfForest_mem_good : ∀ {cs : List FsNode}, wfForest cs = true →
    ∀ n ∈ cs, goodName (FsNode.name n) = true := by
  intro cs
  induction cs with
  | nil => intro _ n hn; cases hn
  | cons m rest ih =>
    intro h n hn
    rcases List.mem_cons.mp hn with heq | hn2
    · subst heq
      cases n with
      | file nm sz md => exact (wfForest_file h).1
      | dir nm rd cs2 => exact (wfForest_dir h).1
    · cases m with
      | file nm sz md => exact ih (wfForest_file h).2.2 n hn2
      | dir nm rd cs2 => exact ih (wfForest_dir h).2.2.2.2 n hn2

theorem fileKeys_ext : ∀ (cs : List FsNode) (rel : String),
    wfForest cs = true → ∀ k ∈ fileKeys cs rel,
      ∃ n, n ∈ cs ∧ keyExt (joinRel rel (FsNode.name n)) k := by
  intro cs rel
  induction cs, rel using fileKeys.induct with
  | case1 rel =>
    intro _ k hk
    rw [fileKeys] at hk
    cases hk
  | case2 nm sz md rest rel ih =>
    intro hwf k hk
    obtain ⟨hg, hnames, hrest⟩ := wfForest_file hwf
    rw [fileKeys] at hk
    rcases List.mem_cons.mp hk with heq | hk2
    · subst heq
      exact ⟨FsNode.file nm sz md, List.mem_cons_self _ _,
        keyExt_refl (joinRel rel nm)⟩
    · obtain ⟨n, hn, hext⟩ := ih hrest k hk2
      exact ⟨n, List.mem_cons_of_mem _ hn, hext⟩
  | case3 nm rd cs rest rel ihsub ihrest =>
    intro hwf k hk
    obtain ⟨hg, hrd, hcs, hnames, hrest⟩ := wfForest_dir hwf
    rw [fileKeys] at hk
    rcases List.mem_append.mp hk with hk1 | hk2
    · obtain ⟨c, _, hext⟩ := ihsub hcs k hk1
      exact ⟨FsNode.dir nm rd cs, List.mem_cons_self _ _,
        keyExt_of_child (joinRel_ne_empty (goodName_ne_empty hg)) hext⟩
    · obtain ⟨n, hn, hext⟩ := ihrest hrest k hk2
      exact ⟨n, List.mem_cons_of_mem _ hn, hext⟩

theorem fileKeys_nodup : ∀ (cs : List FsNode) (rel : String),
    wfForest cs = true → (fileKeys cs rel).Nodup := by
  intro cs rel
  induction cs, rel using fileKeys.induct with
  | case1 rel =>
    intro _
    rw [fileKeys]
    exact List.nodup_nil
  | case2 nm sz md rest rel ih =>
    intro hwf
    obtain ⟨hg, hnames, hrest⟩ := wfForest_file hwf
    rw [fileKeys, List.nodup_cons]
    refine ⟨?_, ih hrest⟩
    intro hmem
    obtain ⟨n, hn, hext⟩ := fileKeys_ext rest rel hrest _ hmem
    have hgn : goodName (FsNode.name n) = true := wfForest_mem_good hrest n hn
    exact keyExt_ne hg hgn (Ne.symm (hnames n hn))
      (keyExt_refl (joinRel rel nm)) hext rfl
  | case3 nm rd cs rest rel ihsub ihrest =>
    intro hwf
    obtain ⟨hg, hrd, hcs, hnames, hrest⟩ := wfForest_dir hwf
    rw [fileKeys, List.nodup_append]
    refine ⟨ihsub hcs, ihrest hrest, ?_⟩
    intro k hk1 hk2
    obtain ⟨c, _, hextc⟩ := fileKeys_ext cs (joinRel rel nm) hcs k hk1
    obtain ⟨n, hn, hextn⟩ := fileKeys_ext rest rel hrest k hk2
    have hgn : goodName (FsNode.name n) = true := wfForest_mem_good hrest n hn
    exact keyExt_ne hg hgn (Ne.symm (hnames n hn))
      (keyExt_of_child (joinRel_ne_empty (goodName_ne_empty hg)) hextc)
      hextn rfl

theorem fileKeys_no_bslash : ∀ (cs : List FsNode) (rel : String),
    wfForest cs = true → (∀ c ∈ rel.data, c ≠ '\\') →
    ∀ k ∈ fileKeys cs rel, ∀ c ∈ k.data, c ≠ '\\' := by
  intro cs rel
  induction cs, rel using fileKeys.induct with
  | case1 rel =>
    intro _ _ k hk
    rw [fileKeys] at hk
    cases hk
  | case2 nm sz md rest rel ih =>
    intro hwf hrel k hk
    obtain ⟨hg, hnames, hrest⟩ := wfForest_file hwf
    rw [fileKeys] at hk
    rcases List.mem_cons.mp hk with heq | hk2
    · subst heq
      exact joinRel_no_bslash hrel (goodName_no_bslash hg)
    · exact ih hrest hrel k hk2
  | case3 nm rd cs rest rel ihsub ihrest =>
    intro hwf hrel k hk
    obtain ⟨hg, hrd, hcs, hnames, hrest⟩ := wfForest_dir hwf
    rw [fileKeys] at hk
    rcases List.mem_append.mp hk with hk1 | hk2
    · exact ihsub hcs
        (joinRel_no_bslash hrel (goodName_no_bslash hg)) k hk1
    · exact ihrest hrest hrel k hk2

theorem mapSet_fresh {K V : Type} [DecidableEq K] {m : List (K × V)} {k : K}
    (h : k ∉ m.map Prod.fst) (v : V) : mapSet m k v = m ++ [(k, v)] := by
  have hc : m.any (fun kv => decide (kv.1 = k)) = false := by
    rw [List.any_eq_false]
    intro kv hkv heq
    rw [decide_eq_true_eq] at heq
    exact h (List.mem_map.mpr ⟨kv, hkv, heq⟩)
  unfold mapSet
  rw [hc]
  simp

theorem scanChildren_entries (sep : String) (hsep : sep = "/" ∨ sep = "\\") :
    ∀ (cs : List FsNode) (dir rel : String) (acc : List (String × FileInfo)),
      wfForest cs = true →
      (∀ c ∈ rel.data, c ≠ '\\') →
      (acc.map Prod.fst ++ fileKeys cs rel).Nodup →
      scanChildren sep cs dir rel acc
        = Except.ok (acc ++ fileEntries sep cs dir rel) := by
  intro cs dir rel acc
  induction cs, dir, rel, acc using scanChildren.induct sep with
  | case1 dir rel files =>
    intro _ _ _
    rw [scanChildren, fileEntries]
    simp
  | case2 nm sz md rest dir rel files ih =>
    intro hwf hrel hnd
    obtain ⟨hg, hnames, hrest⟩ := wfForest_file hwf
    have hkey : normalizeKey (entryRel rel (dir ++ sep ++ nm))
        = joinRel rel nm := by
      rw [entryRel_join hsep rel dir nm (goodName_no_sep hg)]
      exact normalizeKey_id (joinRel_no_bslash hrel (goodName_no_bslash hg))
    rw [fileKeys] at hnd
    have hj : joinRel rel nm ∉ files.map Prod.fst := by
      have h2 := List.nodup_middle.mp hnd
      rw [List.nodup_cons] at h2
      intro hmem
      exact h2.1 (List.mem_append.mpr (Or.inl hmem))
    have hms : mapSet files (normalizeKey (entryRel rel (dir ++ sep ++ nm)))
        (⟨dir ++ sep ++ nm, false, sz, md⟩ : FileInfo)
        = files ++ [(joinRel rel nm,
            (⟨dir ++ sep ++ nm, false, sz, md⟩ : FileInfo))] := by
      rw [hkey]
      exact mapSet_fresh hj _
    rw [scanChildren, hms]
    rw [hms] at ih
    have hnd2 : ((files
          ++ [(joinRel rel nm,
                (⟨dir ++ sep ++ nm, false, sz, md⟩ : FileInfo))]).map Prod.fst
        ++ fileKeys rest rel).Nodup := by
      rw [List.map_append, List.append_assoc]
      simpa using hnd
    rw [ih hrest hrel hnd2, fileEntries]
    rw [List.append_assoc]
    simp

  | case3 nm cs rest dir rel files files2 heq ihsub ihrest =>
    intro hwf hrel hnd
    obtain ⟨hg, _, hcs, hnames, hrest⟩ := wfForest_dir hwf
    have hrel2 : entryRel rel (dir ++ sep ++ nm) = joinRel rel nm :=
      entryRel_join hsep rel dir nm (goodName_no_sep hg)
    rw [fileKeys] at hnd
    have hndsub : (files.map Prod.fst
        ++ fileKeys cs (joinRel rel nm)).Nodup := by
      refine List.Nodup.sublist ?_ hnd
      rw [← List.append_assoc]
      exact List.sublist_append_left _ _
    have hsubeq := ihsub hcs
      (by rw [hrel2]; exact joinRel_no_bslash hrel (goodName_no_bslash hg))
      (by rw [hrel2]; exact hndsub)
    have hfiles2 : files2 = files ++ fileEntries sep cs (dir ++ sep ++ nm)
        (entryRel rel (dir ++ sep ++ nm)) := by
      have h3 := heq.symm.trans hsubeq
      injection h3
    rw [scanChildren, if_pos rfl, heq]
    show scanChildren sep rest dir rel files2
      = Except.ok (files ++ fileEntries sep (FsNode.dir nm true cs :: rest)
          dir rel)
    have hnd3 : (files2.map Prod.fst ++ fileKeys rest rel).Nodup := by
      rw [hfiles2, List.map_append, fileEntries_keys, hrel2,
        List.append_assoc]
      exact hnd
    rw [ihrest hrest hrel hnd3, hfiles2, fileEntries, hrel2]
    rw [List.append_assoc]

  | case4 nm cs rest dir rel files e heq ihsub =>
    intro hwf hrel hnd
    obtain ⟨hg, _, hcs, hnames, hrest⟩ := wfForest_dir hwf
    have hrel2 : entryRel rel (dir ++ sep ++ nm) = joinRel rel nm :=
      entryRel_join hsep rel dir nm (goodName_no_sep hg)
    rw [fileKeys] at hnd
    have hndsub : (files.map Prod.fst
        ++ fileKeys cs (joinRel rel nm)).Nodup := by
      refine List.Nodup.sublist ?_ hnd
      rw [← List.append_assoc]
      exact List.sublist_append_left _ _
    have hsubeq := ihsub hcs
      (by rw [hrel2]; exact joinRel_no_bslash hrel (goodName_no_bslash hg))
      (by rw [hrel2]; exact hndsub)
    rw [heq] at hsubeq
    exact Except.noConfusion hsubeq

  | case5 nm rd cs rest dir rel files hrd =>
    intro hwf _ _
    obtain ⟨_, hrd2, _, _, _⟩ := wfForest_dir hwf
    exact absurd hrd2 hrd

/-- Claim C8: scanning a well-formed readable local tree returns exactly one
map entry per regular file — the map is exactly `fileEntries`, its keys are
the files' relative paths in traversal order and are pairwise distinct — and
zero entries for directories (the map size is the file count); every key is
built with `/` and contains no backslash, independent of the host path
separator. -/
theorem C8_one_entry_per_file (sep nmRoot dirPath : String) (cs : List FsNode)
    (hsep : sep = "/" ∨ sep = "\\") (hwf : wfForest cs = true) :
    listFilesRecursiveWithInfo sep (FsNode.dir nmRoot true cs) dirPath
        = Except.ok (fileEntries sep cs dirPath "") ∧
    (fileEntries sep cs dirPath "").map Prod.fst = fileKeys cs "" ∧
    (fileKeys cs "").Nodup ∧
    (fileEntries sep cs dirPath "").length = totalFiles cs ∧
    (∀ k ∈ fileKeys cs "", ∀ c ∈ k.data, c ≠ '\\') := by
  refine ⟨?_, fileEntries_keys sep cs dirPath "", fileKeys_nodup cs "" hwf,
    fileEntries_length sep cs dirPath "",
    fileKeys_no_bslash cs "" hwf (by intro c hc; cases hc)⟩
  show scanChildren sep cs dirPath "" []
    = Except.ok (fileEntries sep cs dirPath "")
  have h := scanChildren_entries sep hsep cs dirPath "" [] hwf
    (by intro c hc; cases hc)
    (by simpa using fileKeys_nodup cs "" hwf)
  simpa using h

/-- The tree used by the C8 witness. -/
def c8Forest : List FsNode :=
  [FsNode.file "a.txt" 10 "m1",
   FsNode.dir "sub" true
     [FsNode.file "b.txt" 20 "m2", FsNode.dir "deep" true []],
   FsNode.file "c.txt" 30 "m3"]

/-- Concrete instantiation of `C8_one_entry_per_file`: a two-level tree
scanned with the Windows host separator. -/
theorem C8_one_entry_per_file_witness :
    (("\\" : String) = "/" ∨ ("\\" : String) = "\\") ∧
    wfForest c8Forest = true ∧
    (listFilesRecursiveWithInfo "\\" (FsNode.dir "root" true c8Forest) "D:"
        = Except.ok (fileEntries "\\" c8Forest "D:" "") ∧
      (fileEntries "\\" c8Forest "D:" "").map Prod.fst = fileKeys c8Forest "" ∧
      (fileKeys c8Forest "").Nodup ∧
      (fileEntries "\\" c8Forest "D:" "").length = totalFiles c8Forest ∧
      (∀ k ∈ fileKeys c8Forest "", ∀ c ∈ k.data, c ≠ '\\')) :=
  ⟨Or.inr rfl, by simp [c8Forest, wfForest, goodName, FsNode.name],
    C8_one_entry_per_file "\\" "root" "D:" c8Forest (Or.inr rfl)
      (by simp [c8Forest, wfForest, goodName, FsNode.name])⟩
